import Mathlib

/-!
Verification of the legal-ai repository's structured-output extraction
pipeline (`server/app.py`, `server/postprocess.py`) and evaluation harness
(`training/eval_harness.py`), as a shallow embedding in Lean 4.

Python strings are modelled as Lean `String` (sequences of Unicode scalar
values); Python exceptions are modelled with `Option`/`Except`; `json.loads`
is modelled by an executable recursive-descent parser over the grammar the
CPython `json` module accepts.
-/

/-! ### Python string primitives -/

/-- The characters Python's `str.strip()` removes (the `str.isspace` set). -/
def pyIsSpace (c : Char) : Bool :=
  c == ' ' || c == '\t' || c == '\n' || c == '\r' || c == '\x0b' || c == '\x0c' ||
  (0x1c ≤ c.toNat && c.toNat ≤ 0x1f) || c == '\x85' || c == '\xa0' ||
  c.toNat == 0x1680 || (0x2000 ≤ c.toNat && c.toNat ≤ 0x200a) ||
  c.toNat == 0x2028 || c.toNat == 0x2029 || c.toNat == 0x202f ||
  c.toNat == 0x205f || c.toNat == 0x3000

/-- Drop leading Python whitespace from a character list. -/
def dropLeadingWs : List Char → List Char
  | [] => []
  | c :: rest => if pyIsSpace c then dropLeadingWs rest else c :: rest

/-- Model of Python `str.strip()`. -/
def pyStrip (s : String) : String :=
  ⟨(dropLeadingWs (dropLeadingWs s.data).reverse).reverse⟩

/-- The line-boundary characters of Python `str.splitlines()`
(besides the combined boundary `\r\n`). -/
def isLineBoundary (c : Char) : Bool :=
  c == '\n' || c == '\r' || c == '\x0b' || c == '\x0c' ||
  c == '\x1c' || c == '\x1d' || c == '\x1e' || c == '\x85' ||
  c.toNat == 0x2028 || c.toNat == 0x2029

/-- Worker for `pySplitlines`: `acc` is the current line, reversed. -/
def splitlinesAux : List Char → List Char → List (List Char)
  | [], acc => if acc.isEmpty then [] else [acc.reverse]
  | '\r' :: '\n' :: rest, acc => acc.reverse :: splitlinesAux rest []
  | '\r' :: rest, acc => acc.reverse :: splitlinesAux rest []
  | c :: rest, acc =>
    if isLineBoundary c then acc.reverse :: splitlinesAux rest []
    else splitlinesAux rest (c :: acc)

/-- Model of Python `str.splitlines()`. -/
def pySplitlines (s : String) : List String :=
  (splitlinesAux s.data []).map String.mk

/-- Model of Python `str.lower()` (ASCII case mapping; the repository's
keyword list is pure ASCII). -/
def pyLower (s : String) : String := ⟨s.data.map Char.toLower⟩

/-- Is `pat` a prefix of `cs`? -/
def listStartsWith : List Char → List Char → Bool
  | [], _ => true
  | _ :: _, [] => false
  | a :: as, b :: bs => a == b && listStartsWith as bs

/-- Is `needle` a contiguous substring of `hay`?  Model of Python
`needle in hay` on strings. -/
def hasSub (needle : List Char) : List Char → Bool
  | [] => listStartsWith needle []
  | c :: rest => listStartsWith needle (c :: rest) || hasSub needle rest

/-- Model of the Python slice `s[:n]`. -/
def pySlice (s : String) (n : Nat) : String := ⟨s.data.take n⟩

/-- Model of Python `sep.join(xs)`. -/
def pyJoin (sep : String) : List String → String
  | [] => ""
  | [x] => x
  | x :: y :: tl => x ++ sep ++ pyJoin sep (y :: tl)

/-- The decimal digit character for a digit value (reduced mod 10, so the
map is well-defined for every natural number; all call sites pass values
below 10). -/
def digitChar (d : Nat) : Char := Char.ofNat (48 + d % 10)

/-- Decimal digits of a natural number (fuel-based so it reduces by `rfl`). -/
def natToStrAux : Nat → Nat → List Char
  | 0, _ => []
  | fuel + 1, n => if n < 10 then [digitChar n] else natToStrAux fuel (n / 10) ++ [digitChar (n % 10)]

/-- Model of Python `str(n)` for a non-negative integer. -/
def natToStr (n : Nat) : String := ⟨natToStrAux (n + 1) n⟩

/-- Model of Python `str(n)` for an integer. -/
def intToStr (n : Int) : String :=
  if n < 0 then "-" ++ natToStr n.natAbs else natToStr n.natAbs

/-- The opening-brace character. -/
def lbrace : Char := Char.ofNat 123

/-- The closing-brace character. -/
def rbrace : Char := Char.ofNat 125

/-! ### The JSON data model

Python `json.loads` produces `None`, `bool`, `int`, `float`, `str`, `list`
and `dict` values.  Objects are normalised at parse time exactly as a Python
`dict` built key-by-key is: first-occurrence ordering, last-occurrence value.
Floats are kept as their literal digits (their numeric repr-normalisation is
not modelled); the IEEE specials accepted by `json.loads` are explicit
constructors. -/

/-- A parsed floating-point literal: sign, integer digits, fractional digits
(empty = absent), exponent sign and digits (empty = absent). -/
structure FloatLit where
  neg : Bool
  ip : List Nat
  fp : List Nat
  eneg : Bool
  ep : List Nat

mutual
inductive Json where
  | null : Json
  | bool : Bool → Json
  | int : Int → Json
  | float : FloatLit → Json
  | nan : Json
  | inf : Json
  | ninf : Json
  | str : String → Json
  | arr : JsonList → Json
  | obj : JsonObj → Json
inductive JsonList where
  | nil : JsonList
  | cons : Json → JsonList → JsonList
inductive JsonObj where
  | nil : JsonObj
  | cons : String → Json → JsonObj → JsonObj
end

/-- Convert a parsed JSON array to a Lean list. -/
def JsonList.toList : JsonList → List Json
  | .nil => []
  | .cons x tl => x :: tl.toList

/-- The keys of a parsed object, in insertion order. -/
def JsonObj.keys : JsonObj → List String
  | .nil => []
  | .cons k _ tl => k :: tl.keys

/-- First (= only, after parse-time normalisation) binding of a key. -/
def JsonObj.lookup : JsonObj → String → Option Json
  | .nil, _ => none
  | .cons k v tl, key => if k = key then some v else tl.lookup key

/-- Is the key bound?  Model of Python `key in dict`. -/
def JsonObj.hasKey (o : JsonObj) (key : String) : Bool :=
  (o.lookup key).isSome

/-- Model of `dict.__setitem__`: replace in place if the key exists
(keeping its position), else append.  This is how `json.loads` builds
objects, so duplicate keys collapse to the last value at the first
occurrence's position. -/
def JsonObj.setKey : JsonObj → String → Json → JsonObj
  | .nil, k, v => .cons k v .nil
  | .cons k2 v2 tl, k, v =>
    if k2 = k then .cons k2 v tl else .cons k2 v2 (tl.setKey k v)

/-- Render a float literal back to text (the digits are kept verbatim;
Python's repr-normalisation of floats is not modelled). -/
def floatLitStr (f : FloatLit) : List Char :=
  (if f.neg then ['-'] else []) ++ f.ip.map digitChar ++
  (if f.fp.isEmpty then [] else '.' :: f.fp.map digitChar) ++
  (if f.ep.isEmpty then [] else 'e' :: (if f.eneg then ['-'] else []) ++ f.ep.map digitChar)

/-- Hexadecimal digit character (lower case; reduced mod 16, so the map is
well-defined for every natural number; all call sites pass values below 16). -/
def hexChar (n : Nat) : Char :=
  if n % 16 < 10 then Char.ofNat (48 + n % 16) else Char.ofNat (87 + n % 16)

/-- One character of a Python string repr, escaped as `repr` escapes it.
Unprintable non-ASCII characters are kept verbatim (not modelled). -/
def pyEscChar (q : Char) (c : Char) : List Char :=
  if c == '\\' then ['\\', '\\']
  else if c == q then ['\\', q]
  else if c == '\n' then ['\\', 'n']
  else if c == '\r' then ['\\', 'r']
  else if c == '\t' then ['\\', 't']
  else if c.toNat < 32 || c.toNat == 127 then
    ['\\', 'x', hexChar (c.toNat / 16), hexChar (c.toNat % 16)]
  else [c]

/-- Model of Python `repr` on a string: single-quoted, unless the string
contains a single quote and no double quote. -/
def pyStrRepr (s : String) : String :=
  let q : Char := if s.data.contains (Char.ofNat 39) && !(s.data.contains '"') then '"' else Char.ofNat 39
  ⟨q :: (s.data.map (pyEscChar q)).flatten ++ [q]⟩

mutual
/-- Model of Python `repr` on a `json.loads` value. -/
def pyRepr : Json → String
  | .null => "None"
  | .bool true => "True"
  | .bool false => "False"
  | .int n => intToStr n
  | .float f => ⟨floatLitStr f⟩
  | .nan => "nan"
  | .inf => "inf"
  | .ninf => "-inf"
  | .str s => pyStrRepr s
  | .arr xs => "[" ++ pyReprArr xs ++ "]"
  | .obj o => "\x7b" ++ pyReprObj o ++ "\x7d"
/-- Comma-separated reprs of a list's elements. -/
def pyReprArr : JsonList → String
  | .nil => ""
  | .cons x .nil => pyRepr x
  | .cons x (.cons y tl) => pyRepr x ++ ", " ++ pyReprArr (.cons y tl)
/-- Comma-separated `key: value` reprs of a dict's items. -/
def pyReprObj : JsonObj → String
  | .nil => ""
  | .cons k v .nil => pyStrRepr k ++ ": " ++ pyRepr v
  | .cons k v (.cons k2 v2 tl) =>
    pyStrRepr k ++ ": " ++ pyRepr v ++ ", " ++ pyReprObj (.cons k2 v2 tl)
end

/-- Model of Python `str` on a `json.loads` value (`str` and `repr` agree on
every such value except strings themselves). -/
def pyStr : Json → String
  | .str s => s
  | j => pyRepr j

/-- Model of iterating a Python value, as `map(str, x)` does: lists yield
their elements, strings their characters, dicts their keys; everything else
raises `TypeError` (`none`). -/
def pyIter : Json → Option (List Json)
  | .arr xs => some xs.toList
  | .str s => some (s.data.map fun c => Json.str ⟨[c]⟩)
  | .obj o => some (o.keys.map Json.str)
  | _ => none

/-! ### Model of Python `json.loads`

A fuel-based recursive-descent parser over the grammar the CPython `json`
module accepts in its default (strict) configuration: the six JSON value
forms plus `NaN` / `Infinity` / `-Infinity`, ASCII whitespace `" \t\n\r"`
between tokens, no trailing commas, string-typed object keys, no unescaped
control characters inside strings, and the number grammar
`-?(0|[1-9][0-9]*)(\.[0-9]+)?([eE][-+]?[0-9]+)?`.  `none` models
`json.loads` raising.  The fuel is the input length plus a constant; every
unit of fuel spent is preceded by at least one consumed character, so the
fuel never runs out on accepted input. -/

/-- JSON inter-token whitespace. -/
def jsonWs (c : Char) : Bool := c == ' ' || c == '\t' || c == '\n' || c == '\r'

/-- Skip JSON inter-token whitespace. -/
def skipJsonWs : List Char → List Char
  | [] => []
  | c :: rest => if jsonWs c then skipJsonWs rest else c :: rest

/-- Value of a hexadecimal digit character. -/
def hexVal (c : Char) : Option Nat :=
  if 48 ≤ c.toNat && c.toNat ≤ 57 then some (c.toNat - 48)
  else if 97 ≤ c.toNat && c.toNat ≤ 102 then some (c.toNat - 87)
  else if 65 ≤ c.toNat && c.toNat ≤ 70 then some (c.toNat - 55)
  else none

/-- Parse exactly four hexadecimal digits. -/
def parseHex4 : List Char → Option (Nat × List Char)
  | a :: b :: c :: d :: rest => do
    let x ← hexVal a
    let y ← hexVal b
    let z ← hexVal c
    let w ← hexVal d
    pure (((x * 16 + y) * 16 + z) * 16 + w, rest)
  | _ => none

/-- Parse the body of a JSON string, after the opening quote, up to and
including the closing quote.  Strict mode: unescaped control characters
are rejected.  Surrogate pairs in `\u` escapes are combined; a lone
surrogate (which Python keeps as an unpaired code unit, a value Lean's
`Char` cannot hold) is mapped to `Char.ofNat`'s fallback. -/
def parseStrBody : Nat → List Char → Option (List Char × List Char)
  | 0, _ => none
  | _, [] => none
  | fuel + 1, c :: rest =>
    if c == '"' then some ([], rest)
    else if c == '\\' then
      match rest with
      | [] => none
      | e :: rest2 =>
        let step (ch : Char) (r : List Char) : Option (List Char × List Char) :=
          match parseStrBody fuel r with
          | some (cs, r2) => some (ch :: cs, r2)
          | none => none
        if e == '"' then step '"' rest2
        else if e == '\\' then step '\\' rest2
        else if e == '/' then step '/' rest2
        else if e == 'b' then step '\x08' rest2
        else if e == 'f' then step '\x0c' rest2
        else if e == 'n' then step '\n' rest2
        else if e == 'r' then step '\r' rest2
        else if e == 't' then step '\t' rest2
        else if e == 'u' then
          match parseHex4 rest2 with
          | none => none
          | some (n, rest3) =>
            if 0xD800 ≤ n && n ≤ 0xDBFF then
              match rest3 with
              | '\\' :: 'u' :: rest4 =>
                match parseHex4 rest4 with
                | some (n2, rest5) =>
                  if 0xDC00 ≤ n2 && n2 ≤ 0xDFFF then
                    step (Char.ofNat (0x10000 + (n - 0xD800) * 0x400 + (n2 - 0xDC00))) rest5
                  else step (Char.ofNat n) rest3
                | none => step (Char.ofNat n) rest3
              | _ => step (Char.ofNat n) rest3
            else step (Char.ofNat n) rest3
        else none
    else if c.toNat < 32 then none
    else
      match parseStrBody fuel rest with
      | some (cs, r2) => some (c :: cs, r2)
      | none => none

/-- Numeric value of a digit run. -/
def digitsVal (cs : List Char) : Nat :=
  cs.foldl (fun acc c => acc * 10 + (c.toNat - 48)) 0

/-- Digit values of a digit run. -/
def digitVals (cs : List Char) : List Nat := cs.map (fun c => c.toNat - 48)

/-- Parse a JSON number starting at `cs` (first character is `-` or a
digit).  Follows the CPython number regex: the integer part is a single
`0` or a nonzero-led digit run; fraction and exponent are optional and
must be complete to be consumed. -/
def parseNumber (cs : List Char) : Option (Json × List Char) :=
  let (neg, cs1) : Bool × List Char :=
    match cs with
    | '-' :: t => (true, t)
    | _ => (false, cs)
  match cs1 with
  | [] => none
  | c :: _ =>
    if !c.isDigit then none
    else
      let (ipart, rest1) : List Char × List Char :=
        match cs1 with
        | '0' :: t => (['0'], t)
        | _ => (cs1.takeWhile Char.isDigit, cs1.dropWhile Char.isDigit)
      let (fpart, rest2) : List Char × List Char :=
        match rest1 with
        | '.' :: t =>
          let ds := t.takeWhile Char.isDigit
          if ds.isEmpty then ([], rest1) else (ds, t.dropWhile Char.isDigit)
        | _ => ([], rest1)
      let (eneg, epart, rest3) : Bool × List Char × List Char :=
        match rest2 with
        | 'e' :: '+' :: t =>
          let ds := t.takeWhile Char.isDigit
          if ds.isEmpty then (false, [], rest2) else (false, ds, t.dropWhile Char.isDigit)
        | 'e' :: '-' :: t =>
          let ds := t.takeWhile Char.isDigit
          if ds.isEmpty then (false, [], rest2) else (true, ds, t.dropWhile Char.isDigit)
        | 'e' :: t =>
          let ds := t.takeWhile Char.isDigit
          if ds.isEmpty then (false, [], rest2) else (false, ds, t.dropWhile Char.isDigit)
        | 'E' :: '+' :: t =>
          let ds := t.takeWhile Char.isDigit
          if ds.isEmpty then (false, [], rest2) else (false, ds, t.dropWhile Char.isDigit)
        | 'E' :: '-' :: t =>
          let ds := t.takeWhile Char.isDigit
          if ds.isEmpty then (true, [], rest2) else (true, ds, t.dropWhile Char.isDigit)
        | 'E' :: t =>
          let ds := t.takeWhile Char.isDigit
          if ds.isEmpty then (false, [], rest2) else (false, ds, t.dropWhile Char.isDigit)
        | _ => (false, [], rest2)
      if fpart.isEmpty && epart.isEmpty then
        let v : Int := Int.ofNat (digitsVal ipart)
        some (Json.int (if neg then -v else v), rest1)
      else
        some (Json.float ⟨neg, digitVals ipart, digitVals fpart, eneg, digitVals epart⟩, rest3)

mutual
/-- Parse one JSON value (leading whitespace allowed). -/
def parseVal : Nat → List Char → Option (Json × List Char)
  | 0, _ => none
  | fuel + 1, cs =>
    match skipJsonWs cs with
    | [] => none
    | 't' :: 'r' :: 'u' :: 'e' :: r => some (.bool true, r)
    | 'f' :: 'a' :: 'l' :: 's' :: 'e' :: r => some (.bool false, r)
    | 'n' :: 'u' :: 'l' :: 'l' :: r => some (.null, r)
    | 'N' :: 'a' :: 'N' :: r => some (.nan, r)
    | 'I' :: 'n' :: 'f' :: 'i' :: 'n' :: 'i' :: 't' :: 'y' :: r => some (.inf, r)
    | '-' :: 'I' :: 'n' :: 'f' :: 'i' :: 'n' :: 'i' :: 't' :: 'y' :: r => some (.ninf, r)
    | c :: rest =>
      if c == lbrace then
        match skipJsonWs rest with
        | [] => none
        | c2 :: rest2 =>
          if c2 == rbrace then some (.obj .nil, rest2)
          else
            match parseMembers fuel (c2 :: rest2) .nil with
            | some (o, r) => some (.obj o, r)
            | none => none
      else if c == '[' then
        match skipJsonWs rest with
        | [] => none
        | c2 :: rest2 =>
          if c2 == ']' then some (.arr .nil, rest2)
          else
            match parseElems fuel (c2 :: rest2) with
            | some (xs, r) => some (.arr xs, r)
            | none => none
      else if c == '"' then
        match parseStrBody (rest.length + 1) rest with
        | some (body, r) => some (.str ⟨body⟩, r)
        | none => none
      else if c == '-' || c.isDigit then parseNumber (c :: rest)
      else none
/-- Parse the members of an object, starting at a key (not `}`), up to and
including the closing brace. -/
def parseMembers : Nat → List Char → JsonObj → Option (JsonObj × List Char)
  | 0, _, _ => none
  | fuel + 1, cs, acc =>
    match cs with
    | '"' :: rest =>
      match parseStrBody (rest.length + 1) rest with
      | some (kcs, r1) =>
        match skipJsonWs r1 with
        | ':' :: r2 =>
          match parseVal fuel r2 with
          | some (v, r3) =>
            let acc2 := acc.setKey ⟨kcs⟩ v
            match skipJsonWs r3 with
            | ',' :: r4 => parseMembers fuel (skipJsonWs r4) acc2
            | c :: r4 => if c == rbrace then some (acc2, r4) else none
            | [] => none
          | none => none
        | _ => none
      | none => none
    | _ => none
/-- Parse the elements of an array, starting at a value (not `]`), up to
and including the closing bracket. -/
def parseElems : Nat → List Char → Option (JsonList × List Char)
  | 0, _ => none
  | fuel + 1, cs =>
    match parseVal fuel cs with
    | some (v, r1) =>
      match skipJsonWs r1 with
      | ',' :: r2 =>
        match parseElems fuel r2 with
        | some (tl, r3) => some (.cons v tl, r3)
        | none => none
      | ']' :: r2 => some (.cons v .nil, r2)
      | _ => none
    | none => none
end

/-- Model of Python `json.loads`: parse one value, then require only
whitespace to remain. -/
def json_loads (s : String) : Option Json :=
  match parseVal (s.data.length + 2) s.data with
  | some (v, rest) => if (skipJsonWs rest).isEmpty then some v else none
  | none => none

/-! ### Model of `re.search(r"\{[\s\S]*\}", text)`

The pattern matches at a position `p` iff the character at `p` is `{` and
some `}` occurs strictly after it; greediness makes the match end at the
last `}` of the whole text, and `re.search` takes the leftmost matching
start position.  `reSearchBlock` models the search operationally (scan
start positions left to right); the claimed "first `{` to last `}`"
characterisation is proved about it, not assumed. -/

/-- Index of the first occurrence of a character. -/
def firstIdx (c : Char) : List Char → Option Nat
  | [] => none
  | a :: rest => if a = c then some 0 else (firstIdx c rest).map (· + 1)

/-- Index of the last occurrence of a character. -/
def lastIdx (c : Char) : List Char → Option Nat
  | [] => none
  | a :: rest =>
    match lastIdx c rest with
    | some k => some (k + 1)
    | none => if a = c then some 0 else none

/-- The inclusive slice `cs[i..j]`. -/
def sliceIncl (cs : List Char) (i j : Nat) : List Char :=
  (cs.drop i).take (j + 1 - i)

/-- Does the brace pattern match starting exactly at position `p`?  If so,
the (greedy) match runs to the last `}` of the whole text. -/
def matchBlockAt (cs : List Char) (p : Nat) : Option (List Char) :=
  match cs.get? p with
  | some c =>
    if c = lbrace then
      match lastIdx rbrace cs with
      | some j => if p < j then some (sliceIncl cs p j) else none
      | none => none
    else none
  | none => none

/-- Try start positions `p, p+1, ...` (`fuel` of them). -/
def searchFrom (cs : List Char) : Nat → Nat → Option (List Char)
  | 0, _ => none
  | fuel + 1, p =>
    match matchBlockAt cs p with
    | some b => some b
    | none => searchFrom cs fuel (p + 1)

/-- Model of `re.search(r"\{[\s\S]*\}", text)`: the matched text, if any. -/
def reSearchBlock (cs : List Char) : Option (List Char) :=
  searchFrom cs (cs.length + 1) 0

/-! ### The extraction records and the two `coerce_json` functions -/

/-- The guaranteed-shape review record: `{"flags": [...], "summary": "..."}`. -/
structure Record where
  flags : List String
  summary : String
deriving DecidableEq, Repr

/-- The thirteen heuristic keywords, shared verbatim by `server/app.py`
and `server/postprocess.py`. -/
def keywords : List String :=
  ["liquidation", "preference", "participating", "cap",
   "anti-dilution", "ratchet", "board", "veto", "drag", "tag", "rofr", "esop", "pool"]

/-- Does a (stripped) line contain at least one keyword, case-insensitively?
Model of `any(k in ln.lower() for k in keywords)`. -/
def lineFlag (ln : String) : Bool :=
  keywords.any fun k => hasSub k.data (pyLower ln).data

/-- The non-empty stripped lines of the raw text: model of
`[ln.strip() for ln in model_out.splitlines() if ln.strip()]`. -/
def heurLines (s : String) : List String :=
  ((pySplitlines s).map pyStrip).filter (fun l => !l.isEmpty)

namespace App

/-- The body of the `try` in tiers 1-2 of `server/app.py`'s `coerce_json`,
given the value `json.loads` returned: `none` models the exception the
surrounding `except` swallows (`AttributeError` from `.get` on a non-dict,
`TypeError` from `map(str, ...)` over a non-iterable). -/
def fromParsed (data : Json) : Option Record :=
  match data with
  | .obj o =>
    (pyIter ((o.lookup "flags").getD (Json.arr .nil))).map fun elems =>
      ⟨(elems.map pyStr).take 20,
       pySlice (pyStr ((o.lookup "summary").getD (Json.str ""))) 4000⟩
  | _ => none

/-- Tier 1 of `server/app.py` `coerce_json`: `json.loads` on the whole input. -/
def parsedTier (model_out : String) : Option Record :=
  (json_loads model_out).bind fromParsed

/-- Tier 2 of `server/app.py` `coerce_json`: `json.loads` on the
`re.search`-extracted block. -/
def blockTier (model_out : String) : Option Record :=
  match reSearchBlock model_out.data with
  | some b => (json_loads ⟨b⟩).bind fromParsed
  | none => none

/-- Tier 3 of `server/app.py` `coerce_json`: the keyword heuristic over the
original raw text. -/
def heuristic (model_out : String) : Record :=
  let lines := heurLines model_out
  let flags := lines.filter lineFlag
  ⟨flags.take 12, pySlice (pyJoin " " (lines.take 5)) 4000⟩

/-- `coerce_json` of `server/app.py` (lines 19-49): first tier to succeed
wins. -/
def coerce_json (model_out : String) : Record :=
  match parsedTier model_out with
  | some r => r
  | none =>
    match blockTier model_out with
    | some r => r
    | none => heuristic model_out

end App

namespace Postprocess

/-- The body of the `try` in tiers 1-2 of `server/postprocess.py`'s
`coerce_json`: unlike `server/app.py`, flags are not truncated and the
summary is not truncated. -/
def fromParsed (data : Json) : Option Record :=
  match data with
  | .obj o =>
    (pyIter ((o.lookup "flags").getD (Json.arr .nil))).map fun elems =>
      ⟨elems.map pyStr, pyStr ((o.lookup "summary").getD (Json.str ""))⟩
  | _ => none

/-- Tier 1 of `server/postprocess.py` `coerce_json`. -/
def parsedTier (model_out : String) : Option Record :=
  (json_loads model_out).bind fromParsed

/-- Tier 2 of `server/postprocess.py` `coerce_json`. -/
def blockTier (model_out : String) : Option Record :=
  match reSearchBlock model_out.data with
  | some b => (json_loads ⟨b⟩).bind fromParsed
  | none => none

/-- Tier 3 of `server/postprocess.py` `coerce_json`: no flag truncation,
summary truncated to 2000 characters. -/
def heuristic (model_out : String) : Record :=
  let lines := heurLines model_out
  let flags := lines.filter lineFlag
  ⟨flags, pySlice (pyJoin " " (lines.take 5)) 2000⟩

/-- `coerce_json` of `server/postprocess.py` (lines 4-41). -/
def coerce_json (model_out : String) : Record :=
  match parsedTier model_out with
  | some r => r
  | none =>
    match blockTier model_out with
    | some r => r
    | none => heuristic model_out

end Postprocess

/-! ### Model of `training/eval_harness.py`

Network I/O is modelled by an oracle `att : Nat → Attempt` giving the
outcome of each HTTP attempt: either the attempt raised (file error,
transport error, `raise_for_status`, or `r.json()` failing), carrying the
`repr` of the exception, or it produced a parsed JSON body together with
the measured latency.  What the code does *after* `r.json()` (the
membership tests and `.get` calls, which can themselves raise and turn a
received response into a failed attempt) is modelled explicitly. -/

/-- Outcome of one HTTP attempt. -/
inductive Attempt where
  | err : String → Attempt
  | resp : Nat → Json → Attempt

/-- The result dictionary `post_doc` returns; `none` fields model keys
absent from the Python dict. -/
structure PostResult where
  ok : Bool
  latency_ms : Option Nat := none
  flags : Option Json := none
  summary : Option Json := none
  meta : Option Json := none
  raw : Option Json := none
  error : Option String := none

/-- Modelled `repr` of the `TypeError` raised by `"flags" in data` when
`data` is not a container. -/
def typeErrMsg : String := "TypeError(argument of type is not iterable)"

/-- Modelled `repr` of the `AttributeError` raised by `data.get` when
`data` is not a dict. -/
def attrErrMsg : String := "AttributeError(object has no attribute get)"

/-- Model of Python `key in data`: key membership for dicts, element
membership for lists, substring test for strings, `TypeError` otherwise. -/
def keyInData (k : String) (data : Json) : Option Bool :=
  match data with
  | .obj o => some (o.hasKey k)
  | .arr xs => some (xs.toList.any fun j => match j with | .str s => s = k | _ => false)
  | .str s => some (hasSub k.data s.data)
  | _ => none

/-- The classification and normalisation `post_doc` performs on a parsed
response body (eval_harness.py lines 30-50); `.error` models an exception
escaping to the attempt's `except` handler. -/
def classifyResp (lat : Nat) (data : Json) : Except String PostResult :=
  match keyInData "flags" data with
  | none => Except.error typeErrMsg
  | some b1 =>
    match (if b1 then keyInData "summary" data else some false) with
    | none => Except.error typeErrMsg
    | some b2 =>
      if b1 && b2 then
        match data with
        | .obj o =>
          Except.ok { ok := true, latency_ms := some lat,
                      flags := some ((o.lookup "flags").getD (Json.arr .nil)),
                      summary := some ((o.lookup "summary").getD (Json.str "")),
                      meta := some ((o.lookup "meta").getD (Json.obj .nil)),
                      raw := some Json.null }
        | _ => Except.error attrErrMsg
      else
        Except.ok { ok := true, latency_ms := some lat, flags := some (Json.arr .nil),
                    summary := some (Json.str ""), meta := some (Json.obj .nil),
                    raw := some data }

/-- The complete outcome of attempt number `i`: the normalised result, or
the `repr` string of whatever the attempt raised. -/
def attemptOutcome (a : Attempt) : Except String PostResult :=
  match a with
  | .err e => Except.error e
  | .resp lat data => classifyResp lat data

/-- The retry loop of `post_doc` (eval_harness.py lines 20-55), from
attempt `idx` with `remaining` further attempts allowed; also returns how
many attempts were made. -/
def postDocGo (att : Nat → Attempt) (idx : Nat) : Nat → PostResult × Nat
  | 0 =>
    match attemptOutcome (att idx) with
    | .ok res => (res, 1)
    | .error e => ({ ok := false, error := some e }, 1)
  | remaining + 1 =>
    match attemptOutcome (att idx) with
    | .ok res => (res, 1)
    | .error _ =>
      let (res, n) := postDocGo att (idx + 1) remaining
      (res, n + 1)

/-- `post_doc` with `RETRIES = retries`: up to `retries + 1` attempts. -/
def post_doc (retries : Nat) (att : Nat → Attempt) : PostResult × Nat :=
  postDocGo att 0 retries

/-- The record `run_single` builds and `save_jsonl` writes: the Python dict
with keys in insertion order; `Json.null` models Python `None` (which
`res.get` returns for keys absent from a failure result). -/
structure EvalRecord where
  file : String
  ok : Bool
  latency_ms : Json
  flags : Json
  summary : Json
  meta : Json
  raw : Json
  error : Json
  ts : Nat

/-- `run_single` (eval_harness.py lines 57-70): wrap the `post_doc` result
into a record stamped with the current time. -/
def run_single (path : String) (retries : Nat) (att : Nat → Attempt) (ts : Nat) : EvalRecord :=
  let res := (post_doc retries att).1
  { file := path
    ok := res.ok
    latency_ms := match res.latency_ms with | some n => Json.int n | none => Json.null
    flags := res.flags.getD Json.null
    summary := res.summary.getD Json.null
    meta := res.meta.getD Json.null
    raw := res.raw.getD Json.null
    error := match res.error with | some e => Json.str e | none => Json.null
    ts := ts }

/-! ### Model of `json.dumps` and `save_jsonl` -/

/-- One character of `json.dumps` output inside a string literal
(`ensure_ascii=False`): the two-character escapes, `\uNNNN` for the other
control characters, everything else verbatim. -/
def jsonEscChar (c : Char) : List Char :=
  if c == '"' then ['\\', '"']
  else if c == '\\' then ['\\', '\\']
  else if c == '\n' then ['\\', 'n']
  else if c == '\r' then ['\\', 'r']
  else if c == '\t' then ['\\', 't']
  else if c == '\x08' then ['\\', 'b']
  else if c == '\x0c' then ['\\', 'f']
  else if c.toNat < 32 then ['\\', 'u', '0', '0', hexChar (c.toNat / 16), hexChar (c.toNat % 16)]
  else [c]

/-- `json.dumps` of a string. -/
def dumpsStr (s : String) : String :=
  ⟨'"' :: (s.data.map jsonEscChar).flatten ++ ['"']⟩

mutual
/-- `json.dumps` of a value, with the default separators. -/
def dumpsJson : Json → String
  | .null => "null"
  | .bool true => "true"
  | .bool false => "false"
  | .int n => intToStr n
  | .float f => ⟨floatLitStr f⟩
  | .nan => "NaN"
  | .inf => "Infinity"
  | .ninf => "-Infinity"
  | .str s => dumpsStr s
  | .arr xs => "[" ++ dumpsArr xs ++ "]"
  | .obj o => "\x7b" ++ dumpsObj o ++ "\x7d"
/-- Comma-separated dumps of a list's elements. -/
def dumpsArr : JsonList → String
  | .nil => ""
  | .cons x .nil => dumpsJson x
  | .cons x (.cons y tl) => dumpsJson x ++ ", " ++ dumpsArr (.cons y tl)
/-- Comma-separated `"key": value` dumps of a dict's items. -/
def dumpsObj : JsonObj → String
  | .nil => ""
  | .cons k v .nil => dumpsStr k ++ ": " ++ dumpsJson v
  | .cons k v (.cons k2 v2 tl) =>
    dumpsStr k ++ ": " ++ dumpsJson v ++ ", " ++ dumpsObj (.cons k2 v2 tl)
end

/-- `json.dumps` of the record dict built by `run_single`, keys in
insertion order. -/
def dumpsRecord (r : EvalRecord) : String :=
  "\x7b\"file\": " ++ dumpsStr r.file ++
  ", \"ok\": " ++ (if r.ok then "true" else "false") ++
  ", \"latency_ms\": " ++ dumpsJson r.latency_ms ++
  ", \"flags\": " ++ dumpsJson r.flags ++
  ", \"summary\": " ++ dumpsJson r.summary ++
  ", \"meta\": " ++ dumpsJson r.meta ++
  ", \"raw\": " ++ dumpsJson r.raw ++
  ", \"error\": " ++ dumpsJson r.error ++
  ", \"ts\": " ++ natToStr r.ts ++ "\x7d"

/-- `save_jsonl` (eval_harness.py lines 72-76): the log file is opened in
append mode, so the new content starts from the existing content, and one
`json.dumps` line is written per record. -/
def save_jsonl (records : List EvalRecord) (fileContent : String) : String :=
  match records with
  | [] => fileContent
  | r :: tl => save_jsonl tl (fileContent ++ dumpsRecord r ++ "\n")

/-- The records `main` (eval_harness.py lines 98-123) accumulates: one
`run_single` per input file, in order.  `att` and `ts` are the per-file
network and clock oracles. -/
def mainRecords (files : List String) (retries : Nat)
    (att : String → Nat → Attempt) (ts : String → Nat) : List EvalRecord :=
  files.map fun p => run_single p retries (att p) (ts p)

/-- Concatenation of a list of strings. -/
def strConcat : List String → String
  | [] => ""
  | x :: tl => x ++ strConcat tl

/-- Newlines in a string. -/
def countNL (s : String) : Nat := s.data.count '\n'

/-! ### The Scoring Engine, modelled from the spec

Modelled from the spec: the repository contains no implementation of the
Scoring Engine under `src/` (spec section 4.2 describes it; no source file
defines it), so it is modelled from the spec's words: flags are normalised
by trimming and case-insensitive (lower-case) comparison, the tally counts
the intersection as true positives, predicted-minus-gold as false
positives, gold-minus-predicted as false negatives, and precision and
recall are the guarded ratios `tp/(tp+fp)` and `tp/(tp+fn)`. -/

/-- Normalise a flag: trim, then lower-case. -/
def normFlag (s : String) : String := pyLower (pyStrip s)

/-- Deduplicate, keeping first occurrences: the underlying set of a list. -/
def dedupStr : List String → List String
  | [] => []
  | x :: tl => x :: (dedupStr tl).filter (fun y => y ≠ x)

/-- The per-example score tally. -/
structure ScoreTally where
  tp : Nat
  fp : Nat
  fn : Nat
deriving DecidableEq, Repr

/-- Modelled from the spec: set-based overlap of normalised predicted and
gold flags. -/
def scoreFlags (pred gold : List String) : ScoreTally :=
  let p := dedupStr (pred.map normFlag)
  let g := dedupStr (gold.map normFlag)
  { tp := (p.filter (fun x => g.contains x)).length
    fp := (p.filter (fun x => !g.contains x)).length
    fn := (g.filter (fun x => !p.contains x)).length }

/-- Modelled from the spec: precision, guarded against division by zero. -/
def precisionOf (t : ScoreTally) : ℚ :=
  if t.tp + t.fp = 0 then 0 else (t.tp : ℚ) / ((t.tp : ℚ) + (t.fp : ℚ))

/-- Modelled from the spec: recall, guarded against division by zero. -/
def recallOf (t : ScoreTally) : ℚ :=
  if t.tp + t.fn = 0 then 0 else (t.tp : ℚ) / ((t.tp : ℚ) + (t.fn : ℚ))

/-! ### Helper lemmas -/

theorem stringExt {s t : String} (h : s.data = t.data) : s = t := by
  cases s; cases t; exact congrArg String.mk h

theorem app_fromParsed_bounds (d : Json) (r : Record) (h : App.fromParsed d = some r) :
    r.flags.length ≤ 20 ∧ r.summary.length ≤ 4000 := by
  cases d <;> try exact Option.noConfusion h
  case obj o =>
    have h' : (pyIter ((o.lookup "flags").getD (Json.arr JsonList.nil))).map
        (fun elems => Record.mk ((elems.map pyStr).take 20)
          (pySlice (pyStr ((o.lookup "summary").getD (Json.str ""))) 4000)) = some r := h
    obtain ⟨elems, _, hr⟩ := Option.map_eq_some'.mp h'
    rw [← hr]
    constructor
    · show ((elems.map pyStr).take 20).length ≤ 20
      rw [List.length_take]; omega
    · show (pySlice (pyStr ((o.lookup "summary").getD (Json.str ""))) 4000).data.length ≤ 4000
      show ((pyStr ((o.lookup "summary").getD (Json.str ""))).data.take 4000).length ≤ 4000
      rw [List.length_take]; omega

theorem app_heuristic_flags (s : String) :
    (App.heuristic s).flags = ((heurLines s).filter lineFlag).take 12 := rfl

theorem app_heuristic_summary (s : String) :
    (App.heuristic s).summary = pySlice (pyJoin " " ((heurLines s).take 5)) 4000 := rfl

theorem app_heuristic_bounds (s : String) :
    (App.heuristic s).flags.length ≤ 12 ∧ (App.heuristic s).summary.length ≤ 4000 := by
  constructor
  · rw [app_heuristic_flags, List.length_take]; omega
  · rw [app_heuristic_summary]
    show ((pyJoin " " ((heurLines s).take 5)).data.take 4000).length ≤ 4000
    rw [List.length_take]; omega

/-- C1: for every input string, both `coerce_json` functions (the inline one
in `server/app.py` and the one in `server/postprocess.py`) terminate without
an uncaught exception and return a record with exactly the two fields
`flags` (a list of strings) and `summary` (a string).  In the embedding
every operation that can raise is `Option`-valued and caught by the
modelled `except` handlers, so both functions are total Lean functions
into `Record`, whose type carries exactly those two fields. -/
theorem coerce_json_total (raw : String) :
    (∃ (fs : List String) (sm : String), App.coerce_json raw = ⟨fs, sm⟩) ∧
    (∃ (fs : List String) (sm : String), Postprocess.coerce_json raw = ⟨fs, sm⟩) :=
  ⟨⟨_, _, rfl⟩, ⟨_, _, rfl⟩⟩

/-- C2: the record returned by `server/app.py`'s `coerce_json` always has at
most 20 flags and a summary of at most 4000 characters, and when both parse
tiers fail (the heuristic tier produced it) at most 12 flags. -/
theorem coerce_json_bounds (raw : String) :
    (App.coerce_json raw).flags.length ≤ 20 ∧
    (App.coerce_json raw).summary.length ≤ 4000 ∧
    (App.parsedTier raw = none → App.blockTier raw = none →
      (App.coerce_json raw).flags.length ≤ 12) := by
  unfold App.coerce_json
  cases h1 : App.parsedTier raw with
  | some r =>
    obtain ⟨d, _, hf⟩ := Option.bind_eq_some.mp h1
    have hb := app_fromParsed_bounds d r hf
    exact ⟨hb.1, hb.2, fun h1' _ => Option.noConfusion h1'⟩
  | none =>
    cases h2 : App.blockTier raw with
    | some r =>
      have hf : ∃ d, App.fromParsed d = some r := by
        unfold App.blockTier at h2
        cases hs : reSearchBlock raw.data with
        | none => rw [hs] at h2; exact Option.noConfusion h2
        | some b =>
          rw [hs] at h2
          obtain ⟨d, _, hf⟩ := Option.bind_eq_some.mp h2
          exact ⟨d, hf⟩
      obtain ⟨d, hf⟩ := hf
      have hb := app_fromParsed_bounds d r hf
      exact ⟨hb.1, hb.2, fun _ h2' => Option.noConfusion h2'⟩
    | none =>
      have hb := app_heuristic_bounds raw
      exact ⟨le_trans hb.1 (by omega), hb.2, fun _ _ => hb.1⟩

/-- Witness for C2: a keyword-free unstructured input reaches the heuristic
tier and satisfies the 12-flag bound. -/
theorem coerce_json_bounds_witness :
    (App.coerce_json "plain text").flags.length ≤ 12 :=
  (coerce_json_bounds "plain text").2.2 rfl rfl

/-- C3: when the whole input parses as an object whose `flags` value (after
the `get` default) is a sequence, `coerce_json` returns those flags mapped
through Python `str` and truncated to 20, and the summary value mapped
through `str` and truncated to 4000; the `getD` defaults state the
missing-key cases. -/
theorem direct_parse_spec (raw : String) (o : JsonObj) (xs : JsonList)
    (h1 : json_loads raw = some (Json.obj o))
    (h2 : (o.lookup "flags").getD (Json.arr JsonList.nil) = Json.arr xs) :
    App.coerce_json raw =
      ⟨(xs.toList.map pyStr).take 20,
       pySlice (pyStr ((o.lookup "summary").getD (Json.str ""))) 4000⟩ := by
  have hIter : pyIter ((o.lookup "flags").getD (Json.arr JsonList.nil)) = some xs.toList := by
    rw [h2]; rfl
  have hp : App.parsedTier raw =
      some ⟨(xs.toList.map pyStr).take 20,
            pySlice (pyStr ((o.lookup "summary").getD (Json.str ""))) 4000⟩ := by
    unfold App.parsedTier
    rw [h1]
    show App.fromParsed (Json.obj o) = _
    show (pyIter ((o.lookup "flags").getD (Json.arr JsonList.nil))).map
        (fun elems => Record.mk ((elems.map pyStr).take 20)
          (pySlice (pyStr ((o.lookup "summary").getD (Json.str ""))) 4000)) = _
    rw [hIter]
    rfl
  unfold App.coerce_json
  rw [hp]

/-- Witness for C3: the spec's own example
`{"flags": ["A","B"], "summary": "ok"}`. -/
theorem direct_parse_spec_witness :
    App.coerce_json "\x7b\"flags\": [\"A\", \"B\"], \"summary\": \"ok\"\x7d" =
      ⟨["A", "B"], "ok"⟩ :=
  (direct_parse_spec "\x7b\"flags\": [\"A\", \"B\"], \"summary\": \"ok\"\x7d"
    (JsonObj.cons "flags" (Json.arr (.cons (.str "A") (.cons (.str "B") .nil)))
      (JsonObj.cons "summary" (Json.str "ok") .nil))
    (.cons (.str "A") (.cons (.str "B") .nil)) rfl rfl).trans rfl

/-- C5: when both parse tiers fail, `coerce_json`'s flags are the non-empty
stripped lines that contain a keyword (case-insensitively), first 12 in
original order, and the summary is the first 5 non-empty stripped lines
joined by single spaces and truncated to 4000 characters. -/
theorem heuristic_tier_spec (raw : String)
    (h1 : App.parsedTier raw = none) (h2 : App.blockTier raw = none) :
    (App.coerce_json raw).flags = ((heurLines raw).filter lineFlag).take 12 ∧
    (App.coerce_json raw).summary = pySlice (pyJoin " " ((heurLines raw).take 5)) 4000 ∧
    (∀ ln : String, lineFlag ln = true ↔
      ∃ k ∈ (["liquidation", "preference", "participating", "cap",
              "anti-dilution", "ratchet", "board", "veto", "drag", "tag",
              "rofr", "esop", "pool"] : List String),
        hasSub k.data (pyLower ln).data = true) := by
  have hc : App.coerce_json raw = App.heuristic raw := by
    unfold App.coerce_json
    rw [h1, h2]
  refine ⟨by rw [hc]; rfl, by rw [hc]; rfl, fun ln => ?_⟩
  show keywords.any (fun k => hasSub k.data (pyLower ln).data) = true ↔ _
  exact List.any_eq_true

/-- Witness for C5: the spec's own example, two lines of which only the
first contains a keyword. -/
theorem heuristic_tier_spec_witness :
    (App.coerce_json "Liquidation preference is 2x\nUnrelated line").flags =
      ["Liquidation preference is 2x"] ∧
    (App.coerce_json "Liquidation preference is 2x\nUnrelated line").summary =
      "Liquidation preference is 2x Unrelated line" :=
  ⟨((heuristic_tier_spec "Liquidation preference is 2x\nUnrelated line" rfl rfl).1).trans (by rfl),
   ((heuristic_tier_spec "Liquidation preference is 2x\nUnrelated line" rfl rfl).2.1).trans (by rfl)⟩

theorem fromParsed_rel (d : Json) :
    App.fromParsed d = (Postprocess.fromParsed d).map
      (fun r => ⟨r.flags.take 20, ⟨r.summary.data.take 4000⟩⟩) := by
  cases d <;> try rfl
  case obj o =>
    show (pyIter ((o.lookup "flags").getD (Json.arr JsonList.nil))).map _ =
      ((pyIter ((o.lookup "flags").getD (Json.arr JsonList.nil))).map _).map _
    rw [Option.map_map]
    rfl

theorem parsedTier_rel (raw : String) :
    App.parsedTier raw = (Postprocess.parsedTier raw).map
      (fun r => ⟨r.flags.take 20, ⟨r.summary.data.take 4000⟩⟩) := by
  unfold App.parsedTier Postprocess.parsedTier
  cases json_loads raw with
  | none => rfl
  | some d => exact fromParsed_rel d

theorem blockTier_rel (raw : String) :
    App.blockTier raw = (Postprocess.blockTier raw).map
      (fun r => ⟨r.flags.take 20, ⟨r.summary.data.take 4000⟩⟩) := by
  unfold App.blockTier Postprocess.blockTier
  cases reSearchBlock raw.data with
  | none => rfl
  | some b =>
    show (json_loads ⟨b⟩).bind App.fromParsed =
      ((json_loads ⟨b⟩).bind Postprocess.fromParsed).map
        (fun r => ⟨r.flags.take 20, ⟨r.summary.data.take 4000⟩⟩)
    cases json_loads ⟨b⟩ with
    | none => rfl
    | some d => exact fromParsed_rel d

/-- Counterexample to C9: on thirteen keyword lines the heuristic tier of
`server/app.py` keeps 12 flags while `server/postprocess.py` keeps all 13,
so the two `coerce_json` functions differ. -/
theorem coerce_versions_differ :
    App.coerce_json "cap\ncap\ncap\ncap\ncap\ncap\ncap\ncap\ncap\ncap\ncap\ncap\ncap" ≠
    Postprocess.coerce_json "cap\ncap\ncap\ncap\ncap\ncap\ncap\ncap\ncap\ncap\ncap\ncap\ncap" := by
  decide

/-- C9 as amended: the claimed pointwise equality fails, but for every
input the two `coerce_json` functions pick the same tier and differ only by
truncation: the `app.py` flags list is a prefix of the `postprocess.py`
one, and one summary is a prefix of the other (`app.py` truncates parsed
summaries to 4000 characters, `postprocess.py` truncates only the heuristic
summary, to 2000 characters). -/
theorem coerce_versions_relation (raw : String) :
    (App.coerce_json raw).flags <+: (Postprocess.coerce_json raw).flags ∧
    ((App.coerce_json raw).summary.data <+: (Postprocess.coerce_json raw).summary.data ∨
     (Postprocess.coerce_json raw).summary.data <+: (App.coerce_json raw).summary.data) := by
  unfold App.coerce_json Postprocess.coerce_json
  rw [parsedTier_rel raw, blockTier_rel raw]
  cases Postprocess.parsedTier raw with
  | some r =>
    constructor
    · show r.flags.take 20 <+: r.flags
      exact List.take_prefix _ _
    · left
      show r.summary.data.take 4000 <+: r.summary.data
      exact List.take_prefix _ _
  | none =>
    cases Postprocess.blockTier raw with
    | some r =>
      constructor
      · show r.flags.take 20 <+: r.flags
        exact List.take_prefix _ _
      · left
        show r.summary.data.take 4000 <+: r.summary.data
        exact List.take_prefix _ _
    | none =>
      constructor
      · show ((heurLines raw).filter lineFlag).take 12 <+: (heurLines raw).filter lineFlag
        exact List.take_prefix _ _
      · right
        show (pyJoin " " ((heurLines raw).take 5)).data.take 2000 <+:
          (pyJoin " " ((heurLines raw).take 5)).data.take 4000
        have h2 : (pyJoin " " ((heurLines raw).take 5)).data.take 2000 =
            ((pyJoin " " ((heurLines raw).take 5)).data.take 4000).take 2000 := by
          rw [List.take_take]
          norm_num
        rw [h2]
        exact List.take_prefix _ _

theorem firstIdx_mem {c : Char} : ∀ {cs : List Char} {i : Nat},
    firstIdx c cs = some i → cs.get? i = some c := by
  intro cs
  induction cs with
  | nil => intro i h; exact Option.noConfusion h
  | cons a rest ih =>
    intro i h
    unfold firstIdx at h
    by_cases hac : a = c
    · rw [if_pos hac] at h
      rw [← Option.some.inj h]
      simpa using hac
    · rw [if_neg hac] at h
      obtain ⟨i2, hi2, hmap⟩ := Option.map_eq_some'.mp h
      rw [← hmap]
      exact ih hi2

theorem firstIdx_min {c : Char} : ∀ {cs : List Char} {i : Nat},
    firstIdx c cs = some i → ∀ q, q < i → cs.get? q ≠ some c := by
  intro cs
  induction cs with
  | nil => intro i h; exact Option.noConfusion h
  | cons a rest ih =>
    intro i h q hq
    unfold firstIdx at h
    by_cases hac : a = c
    · rw [if_pos hac] at h
      rw [← Option.some.inj h] at hq
      exact absurd hq (Nat.not_lt_zero q)
    · rw [if_neg hac] at h
      obtain ⟨i2, hi2, hmap⟩ := Option.map_eq_some'.mp h
      cases q with
      | zero => simpa using hac
      | succ q2 =>
        show rest.get? q2 ≠ some c
        exact ih hi2 q2 (by omega)

theorem firstIdx_none {c : Char} : ∀ {cs : List Char},
    firstIdx c cs = none → ∀ q, cs.get? q ≠ some c := by
  intro cs
  induction cs with
  | nil => intro _ q h; rw [List.get?_eq_none.2 (Nat.zero_le q)] at h; exact Option.noConfusion h
  | cons a rest ih =>
    intro h q
    unfold firstIdx at h
    by_cases hac : a = c
    · rw [if_pos hac] at h; exact Option.noConfusion h
    · rw [if_neg hac] at h
      cases q with
      | zero => simpa using hac
      | succ q2 =>
        show rest.get? q2 ≠ some c
        exact ih (Option.map_eq_none'.mp h) q2

theorem lastIdx_mem {c : Char} : ∀ {cs : List Char} {j : Nat},
    lastIdx c cs = some j → cs.get? j = some c := by
  intro cs
  induction cs with
  | nil => intro j h; exact Option.noConfusion h
  | cons a rest ih =>
    intro j h
    unfold lastIdx at h
    cases hk : lastIdx c rest with
    | some k =>
      rw [hk] at h
      rw [← Option.some.inj h]
      exact ih hk
    | none =>
      rw [hk] at h
      by_cases hac : a = c
      · rw [if_pos hac] at h
        rw [← Option.some.inj h]
        simpa using hac
      · rw [if_neg hac] at h; exact Option.noConfusion h

theorem lastIdx_none {c : Char} : ∀ {cs : List Char},
    lastIdx c cs = none → ∀ q, cs.get? q ≠ some c := by
  intro cs
  induction cs with
  | nil => intro _ q h; rw [List.get?_eq_none.2 (Nat.zero_le q)] at h; exact Option.noConfusion h
  | cons a rest ih =>
    intro h q
    unfold lastIdx at h
    cases hk : lastIdx c rest with
    | some k => rw [hk] at h; exact Option.noConfusion h
    | none =>
      rw [hk] at h
      by_cases hac : a = c
      · rw [if_pos hac] at h; exact Option.noConfusion h
      · rw [if_neg hac] at h
        cases q with
        | zero => simpa using hac
        | succ q2 =>
          show rest.get? q2 ≠ some c
          exact ih hk q2

theorem lastIdx_max {c : Char} : ∀ {cs : List Char} {j : Nat},
    lastIdx c cs = some j → ∀ q, j < q → cs.get? q ≠ some c := by
  intro cs
  induction cs with
  | nil => intro j h; exact Option.noConfusion h
  | cons a rest ih =>
    intro j h q hq
    unfold lastIdx at h
    cases hk : lastIdx c rest with
    | some k =>
      rw [hk] at h
      rw [← Option.some.inj h] at hq
      cases q with
      | zero => exact absurd hq (Nat.not_lt_zero _)
      | succ q2 =>
        show rest.get? q2 ≠ some c
        exact ih hk q2 (by omega)
    | none =>
      rw [hk] at h
      by_cases hac : a = c
      · rw [if_pos hac] at h
        cases q with
        | zero => rw [← Option.some.inj h] at hq; exact absurd hq (Nat.not_lt_zero _)
        | succ q2 =>
          show rest.get? q2 ≠ some c
          exact lastIdx_none hk q2
      · rw [if_neg hac] at h; exact Option.noConfusion h

theorem searchFrom_all_none (cs : List Char) (h : ∀ q, matchBlockAt cs q = none) :
    ∀ fuel p, searchFrom cs fuel p = none := by
  intro fuel
  induction fuel with
  | zero => intro p; rfl
  | succ f ih =>
    intro p
    unfold searchFrom
    rw [h p]
    exact ih (p + 1)

theorem searchFrom_hit (cs : List Char) (i : Nat) (b : List Char)
    (hi : matchBlockAt cs i = some b)
    (hmin : ∀ q, q < i → matchBlockAt cs q = none) :
    ∀ fuel p, p ≤ i → i < p + fuel → searchFrom cs fuel p = some b := by
  intro fuel
  induction fuel with
  | zero => intro p h1 h2; omega
  | succ f ih =>
    intro p h1 h2
    unfold searchFrom
    by_cases hpi : p = i
    · rw [hpi, hi]
    · rw [hmin p (by omega)]
      exact ih (p + 1) (by omega) (by omega)

/-- C4: when the direct parse fails, exactly one embedded-block parse is
attempted, and only on the substring running from the first `{` of the text
to its last `}` (which is precisely what the operational regex search
returns); if that parse also fails — or no such substring exists — the
heuristic runs on the original raw input, so the output always comes from
exactly one tier. -/
theorem embedded_tier_spec (raw : String) (h1 : App.parsedTier raw = none) :
    (∃ i j, firstIdx lbrace raw.data = some i ∧ lastIdx rbrace raw.data = some j ∧
      i < j ∧ reSearchBlock raw.data = some (sliceIncl raw.data i j) ∧
      App.coerce_json raw =
        (match (json_loads ⟨sliceIncl raw.data i j⟩).bind App.fromParsed with
         | some r => r
         | none => App.heuristic raw)) ∨
    (reSearchBlock raw.data = none ∧ App.coerce_json raw = App.heuristic raw) := by
  have hstep : App.coerce_json raw =
      (match App.blockTier raw with
       | some r => r
       | none => App.heuristic raw) := by
    unfold App.coerce_json
    rw [h1]
  have hcoNone : reSearchBlock raw.data = none → App.coerce_json raw = App.heuristic raw := by
    intro hrs
    have hbt : App.blockTier raw = none := by
      unfold App.blockTier
      rw [hrs]
    rw [hstep, hbt]
  have hcoSome : ∀ b, reSearchBlock raw.data = some b →
      App.coerce_json raw =
        (match (json_loads ⟨b⟩).bind App.fromParsed with
         | some r => r
         | none => App.heuristic raw) := by
    intro b hrs
    have hbt : App.blockTier raw = (json_loads ⟨b⟩).bind App.fromParsed := by
      unfold App.blockTier
      rw [hrs]
    rw [hstep, hbt]
  cases hf : firstIdx lbrace raw.data with
  | none =>
    have hnone : ∀ q, matchBlockAt raw.data q = none := by
      intro q
      unfold matchBlockAt
      cases hg : raw.data.get? q with
      | none => rfl
      | some ch =>
        have hne : ch ≠ lbrace := fun he => firstIdx_none hf q (he ▸ hg)
        simp [hne]
    have hrs : reSearchBlock raw.data = none := searchFrom_all_none _ hnone _ _
    exact Or.inr ⟨hrs, hcoNone hrs⟩
  | some i =>
    cases hl : lastIdx rbrace raw.data with
    | none =>
      have hnone : ∀ q, matchBlockAt raw.data q = none := by
        intro q
        unfold matchBlockAt
        cases hg : raw.data.get? q with
        | none => rfl
        | some ch =>
          by_cases hch : ch = lbrace
          · simp [hch, hl]
          · simp [hch]
      have hrs : reSearchBlock raw.data = none := searchFrom_all_none _ hnone _ _
      exact Or.inr ⟨hrs, hcoNone hrs⟩
    | some j =>
      by_cases hij : i < j
      · have hmi : matchBlockAt raw.data i = some (sliceIncl raw.data i j) := by
          unfold matchBlockAt
          rw [firstIdx_mem hf]
          simp [hl, hij]
        have hmin : ∀ q, q < i → matchBlockAt raw.data q = none := by
          intro q hq
          unfold matchBlockAt
          cases hg : raw.data.get? q with
          | none => rfl
          | some ch =>
            have hne : ch ≠ lbrace := fun he => firstIdx_min hf q hq (he ▸ hg)
            simp [hne]
        have hilen : i < raw.data.length := by
          have hmem := firstIdx_mem hf
          by_contra hc
          rw [List.get?_eq_none.2 (Nat.le_of_not_lt hc)] at hmem
          exact Option.noConfusion hmem
        have hrs : reSearchBlock raw.data = some (sliceIncl raw.data i j) :=
          searchFrom_hit _ i _ hmi hmin _ 0 (Nat.zero_le i) (by omega)
        exact Or.inl ⟨i, j, rfl, rfl, hij, hrs, hcoSome _ hrs⟩
      · have hnone : ∀ q, matchBlockAt raw.data q = none := by
          intro q
          unfold matchBlockAt
          cases hg : raw.data.get? q with
          | none => rfl
          | some ch =>
            by_cases hch : ch = lbrace
            · have hqi : i ≤ q := by
                by_contra hc
                exact firstIdx_min hf q (Nat.lt_of_not_le hc) (hch ▸ hg)
              have hqj : ¬ q < j := by omega
              simp [hch, hl, hqj]
            · simp [hch]
        have hrs : reSearchBlock raw.data = none := searchFrom_all_none _ hnone _ _
        exact Or.inr ⟨hrs, hcoNone hrs⟩

/-- Witness for C4: prose wrapping a valid block; the block from the first
`{` to the last `}` is parsed and its contents returned. -/
theorem embedded_tier_spec_witness :
    App.coerce_json "x \x7b\"flags\": [\"X\"]\x7d y" = ⟨["X"], ""⟩ := by
  have h := embedded_tier_spec "x \x7b\"flags\": [\"X\"]\x7d y" rfl
  cases h with
  | inr hr => exact absurd hr.1 (by decide)
  | inl hl =>
    obtain ⟨i, j, hf, hlj, hij, hrs, hc⟩ := hl
    have h2 : firstIdx lbrace ("x \x7b\"flags\": [\"X\"]\x7d y").data = some 2 := rfl
    have h17 : lastIdx rbrace ("x \x7b\"flags\": [\"X\"]\x7d y").data = some 17 := rfl
    rw [h2] at hf
    rw [h17] at hlj
    have hi : i = 2 := (Option.some.inj hf).symm
    have hj : j = 17 := (Option.some.inj hlj).symm
    subst hi
    subst hj
    rw [hc]
    exact rfl

theorem classifyResp_ok (lat : Nat) (data : Json) (res : PostResult)
    (h : classifyResp lat data = Except.ok res) :
    res.ok = true ∧ res.latency_ms = some lat ∧ res.error = none ∧
    ((∃ o, data = Json.obj o ∧
        res.flags = some ((o.lookup "flags").getD (Json.arr .nil)) ∧
        res.summary = some ((o.lookup "summary").getD (Json.str "")) ∧
        res.meta = some ((o.lookup "meta").getD (Json.obj .nil)) ∧
        res.raw = some Json.null) ∨
     (res.flags = some (Json.arr .nil) ∧ res.summary = some (Json.str "") ∧
      res.meta = some (Json.obj .nil) ∧ res.raw = some data)) := by
  cases data with
  | obj o =>
    by_cases h1 : o.hasKey "flags"
    · by_cases h2 : o.hasKey "summary"
      · simp [classifyResp, keyInData, h1, h2] at h
        subst h
        exact ⟨rfl, rfl, rfl, Or.inl ⟨o, rfl, rfl, rfl, rfl, rfl⟩⟩
      · simp [classifyResp, keyInData, h1, h2] at h
        subst h
        exact ⟨rfl, rfl, rfl, Or.inr ⟨rfl, rfl, rfl, rfl⟩⟩
    · simp [classifyResp, keyInData, h1] at h
      subst h
      exact ⟨rfl, rfl, rfl, Or.inr ⟨rfl, rfl, rfl, rfl⟩⟩
  | arr xs =>
    by_cases h1 : (xs.toList.any fun j => match j with | .str s => s = "flags" | _ => false)
    · by_cases h2 : (xs.toList.any fun j => match j with | .str s => s = "summary" | _ => false)
      · simp [classifyResp, keyInData, h1, h2] at h
      · simp [classifyResp, keyInData, h1, h2] at h
        subst h
        exact ⟨rfl, rfl, rfl, Or.inr ⟨rfl, rfl, rfl, rfl⟩⟩
    · simp [classifyResp, keyInData, h1] at h
      subst h
      exact ⟨rfl, rfl, rfl, Or.inr ⟨rfl, rfl, rfl, rfl⟩⟩
  | str s =>
    by_cases h1 : hasSub ("flags" : String).data s.data
    · by_cases h2 : hasSub ("summary" : String).data s.data
      · simp [classifyResp, keyInData, h1, h2] at h
      · simp [classifyResp, keyInData, h1, h2] at h
        subst h
        exact ⟨rfl, rfl, rfl, Or.inr ⟨rfl, rfl, rfl, rfl⟩⟩
    · simp [classifyResp, keyInData, h1] at h
      subst h
      exact ⟨rfl, rfl, rfl, Or.inr ⟨rfl, rfl, rfl, rfl⟩⟩
  | null => simp [classifyResp, keyInData] at h
  | bool b => simp [classifyResp, keyInData] at h
  | int n => simp [classifyResp, keyInData] at h
  | float f => simp [classifyResp, keyInData] at h
  | nan => simp [classifyResp, keyInData] at h
  | inf => simp [classifyResp, keyInData] at h
  | ninf => simp [classifyResp, keyInData] at h

theorem postDocGo_used_le (att : Nat → Attempt) :
    ∀ remaining idx, (postDocGo att idx remaining).2 ≤ remaining + 1 := by
  intro remaining
  induction remaining with
  | zero =>
    intro idx
    cases h : attemptOutcome (att idx) <;> simp [postDocGo, h]
  | succ rem ih =>
    intro idx
    cases h : attemptOutcome (att idx) with
    | ok res => simp [postDocGo, h]
    | error e =>
      have := ih (idx + 1)
      simp only [postDocGo, h]
      omega

theorem postDocGo_first_ok (att : Nat → Attempt) :
    ∀ remaining idx k res, k ≤ remaining →
      (∀ m, m < k → ∃ e, attemptOutcome (att (idx + m)) = Except.error e) →
      attemptOutcome (att (idx + k)) = Except.ok res →
      postDocGo att idx remaining = (res, k + 1) := by
  intro remaining
  induction remaining with
  | zero =>
    intro idx k res hk _ hok
    have hk0 : k = 0 := by omega
    subst hk0
    simp only [Nat.add_zero] at hok
    simp [postDocGo, hok]
  | succ rem ih =>
    intro idx k res hk hfail hok
    cases k with
    | zero =>
      simp only [Nat.add_zero] at hok
      simp [postDocGo, hok]
    | succ k2 =>
      obtain ⟨e, he⟩ := hfail 0 (by omega)
      simp only [Nat.add_zero] at he
      have hrec := ih (idx + 1) k2 res (by omega)
        (fun m hm => by
          have := hfail (m + 1) (by omega)
          simpa [Nat.add_assoc, Nat.add_comm 1 m] using this)
        (by
          have : idx + 1 + k2 = idx + (k2 + 1) := by omega
          rw [this]
          exact hok)
      simp only [postDocGo, he, hrec]

theorem postDocGo_all_fail (att : Nat → Attempt) :
    ∀ remaining idx,
      (∀ m, m ≤ remaining → ∃ e, attemptOutcome (att (idx + m)) = Except.error e) →
      ∀ e, attemptOutcome (att (idx + remaining)) = Except.error e →
      postDocGo att idx remaining = ({ ok := false, error := some e }, remaining + 1) := by
  intro remaining
  induction remaining with
  | zero =>
    intro idx _ e hlast
    simp only [Nat.add_zero] at hlast
    simp [postDocGo, hlast]
  | succ rem ih =>
    intro idx hfail e hlast
    obtain ⟨e0, he0⟩ := hfail 0 (by omega)
    simp only [Nat.add_zero] at he0
    have hrec := ih (idx + 1)
      (fun m hm => by
        have := hfail (m + 1) (by omega)
        simpa [Nat.add_assoc, Nat.add_comm 1 m] using this)
      e
      (by
        have : idx + 1 + rem = idx + (rem + 1) := by omega
        rw [this]
        exact hlast)
    simp only [postDocGo, he0, hrec]

/-- C6: `post_doc` makes at most `RETRIES + 1` attempts and never lets an
exception escape: if some attempt succeeds (its response classifies without
raising), the result is the normalised successful body — `ok`, the measured
latency, no error, and either the structured `flags`/`summary`/`meta`
fields of a dict body or the whole body as `raw`; if every attempt fails,
the result is `ok := false` carrying the string representation of the last
error and no body fields. -/
theorem post_doc_spec (retries : Nat) (att : Nat → Attempt) :
    (post_doc retries att).2 ≤ retries + 1 ∧
    (∀ i res, i ≤ retries →
      (∀ m, m < i → ∃ e, attemptOutcome (att m) = Except.error e) →
      attemptOutcome (att i) = Except.ok res →
      post_doc retries att = (res, i + 1) ∧
        res.ok = true ∧ res.latency_ms.isSome ∧ res.error = none) ∧
    ((∀ m, m ≤ retries → ∃ e, attemptOutcome (att m) = Except.error e) →
      ∀ e, attemptOutcome (att retries) = Except.error e →
      post_doc retries att = ({ ok := false, error := some e }, retries + 1)) ∧
    (∀ lat data res, classifyResp lat data = Except.ok res →
      res.latency_ms = some lat ∧
      ((∃ o, data = Json.obj o ∧
          res.flags = some ((o.lookup "flags").getD (Json.arr .nil)) ∧
          res.summary = some ((o.lookup "summary").getD (Json.str "")) ∧
          res.meta = some ((o.lookup "meta").getD (Json.obj .nil)) ∧
          res.raw = some Json.null) ∨
       (res.flags = some (Json.arr .nil) ∧ res.summary = some (Json.str "") ∧
        res.meta = some (Json.obj .nil) ∧ res.raw = some data))) := by
  refine ⟨postDocGo_used_le att retries 0, ?_, ?_, ?_⟩
  · intro i res hi hfail hok
    have hgo := postDocGo_first_ok att retries 0 i res hi
      (fun m hm => by simpa using hfail m hm) (by simpa using hok)
    refine ⟨hgo, ?_⟩
    cases hatt : att i with
    | err e => rw [hatt] at hok; exact Except.noConfusion hok
    | resp lat data =>
      rw [hatt] at hok
      have hcl := classifyResp_ok lat data res hok
      exact ⟨hcl.1, by rw [hcl.2.1]; rfl, hcl.2.2.1⟩
  · intro hfail e hlast
    exact postDocGo_all_fail att retries 0
      (fun m hm => by simpa using hfail m hm) e (by simpa using hlast)
  · intro lat data res h
    have hcl := classifyResp_ok lat data res h
    exact ⟨hcl.2.1, hcl.2.2.2⟩

/-- Witness for C6: a first attempt that raises, a second that returns a
structured body; two attempts are made and the structured result returned. -/
theorem post_doc_spec_witness :
    post_doc 2 (fun n => match n with
      | 0 => Attempt.err "ConnectionError(refused)"
      | _ => Attempt.resp 7 (Json.obj (.cons "flags" (Json.arr (.cons (.str "X") .nil))
          (.cons "summary" (Json.str "ok") .nil)))) =
      ({ ok := true, latency_ms := some 7,
         flags := some (Json.arr (.cons (.str "X") .nil)),
         summary := some (Json.str "ok"),
         meta := some (Json.obj .nil),
         raw := some Json.null, error := none }, 2) :=
  ((post_doc_spec 2 (fun n => match n with
      | 0 => Attempt.err "ConnectionError(refused)"
      | _ => Attempt.resp 7 (Json.obj (.cons "flags" (Json.arr (.cons (.str "X") .nil))
          (.cons "summary" (Json.str "ok") .nil))))).2.1 1
    { ok := true, latency_ms := some 7,
      flags := some (Json.arr (.cons (.str "X") .nil)),
      summary := some (Json.str "ok"),
      meta := some (Json.obj .nil),
      raw := some Json.null, error := none } (by omega)
    (fun m hm => by
      have hm0 : m = 0 := by omega
      subst hm0
      exact ⟨"ConnectionError(refused)", rfl⟩)
    rfl).1

/-- C10: when every attempt for a document fails, the record built by
`run_single` has `ok := false`, a string `error`, null `latency_ms`,
`flags`, `summary`, `meta` and `raw`, and the file path and timestamp still
populated. -/
theorem run_single_failure (path : String) (retries : Nat) (att : Nat → Attempt) (ts : Nat)
    (hfail : ∀ m, m ≤ retries → ∃ e, attemptOutcome (att m) = Except.error e)
    (e : String) (hlast : attemptOutcome (att retries) = Except.error e) :
    run_single path retries att ts =
      { file := path, ok := false, latency_ms := Json.null, flags := Json.null,
        summary := Json.null, meta := Json.null, raw := Json.null,
        error := Json.str e, ts := ts } := by
  have hp : post_doc retries att = ({ ok := false, error := some e }, retries + 1) :=
    postDocGo_all_fail att retries 0
      (fun m hm => by simpa using hfail m hm) e (by simpa using hlast)
  unfold run_single
  rw [hp]
  rfl

/-- Witness for C10: two attempts, both raising; the record carries the
error string and null body fields. -/
theorem run_single_failure_witness :
    run_single "doc.docx" 1 (fun _ => Attempt.err "boom()") 42 =
      { file := "doc.docx", ok := false, latency_ms := Json.null, flags := Json.null,
        summary := Json.null, meta := Json.null, raw := Json.null,
        error := Json.str "boom()", ts := 42 } :=
  run_single_failure "doc.docx" 1 (fun _ => Attempt.err "boom()") 42
    (fun _ _ => ⟨"boom()", rfl⟩) "boom()" rfl

theorem char48_ne_nl (k : Nat) (hk : k < 10) : Char.ofNat (48 + k) ≠ '\n' := by
  interval_cases k <;> decide

theorem char87_ne_nl (k : Nat) (hk : k < 16) : Char.ofNat (87 + k) ≠ '\n' := by
  interval_cases k <;> decide

theorem digitChar_ne_nl (d : Nat) : digitChar d ≠ '\n' :=
  char48_ne_nl (d % 10) (Nat.mod_lt _ (by omega))

theorem hexChar_ne_nl (n : Nat) : hexChar n ≠ '\n' := by
  unfold hexChar
  split
  · exact char48_ne_nl (n % 16) (by omega)
  · exact char87_ne_nl (n % 16) (Nat.mod_lt _ (by omega))

theorem nl_not_mem_natToStrAux : ∀ (fuel n : Nat), '\n' ∉ natToStrAux fuel n := by
  intro fuel
  induction fuel with
  | zero => intro n h; exact List.not_mem_nil _ h
  | succ f ih =>
    intro n h
    unfold natToStrAux at h
    split at h
    · rw [List.mem_singleton] at h
      exact digitChar_ne_nl n h.symm
    · rw [List.mem_append] at h
      rcases h with h | h
      · exact ih (n / 10) h
      · rw [List.mem_singleton] at h
        exact digitChar_ne_nl (n % 10) h.symm

theorem nl_not_mem_natToStr (n : Nat) : '\n' ∉ (natToStr n).data :=
  nl_not_mem_natToStrAux (n + 1) n

theorem nl_not_mem_intToStr (n : Int) : '\n' ∉ (intToStr n).data := by
  intro h
  unfold intToStr at h
  split at h
  · rw [String.data_append, List.mem_append] at h
    rcases h with h | h
    · simp at h
    · exact nl_not_mem_natToStr n.natAbs h
  · exact nl_not_mem_natToStr n.natAbs h

theorem nl_ne_digitChar (d : Nat) : '\n' ≠ digitChar d :=
  fun h => digitChar_ne_nl d h.symm

theorem nl_not_mem_floatLitStr (f : FloatLit) : '\n' ∉ floatLitStr f := by
  intro h
  rcases f with ⟨neg, ip, fp, eneg, ep⟩
  cases neg <;> cases eneg <;> cases fp <;> cases ep <;>
    simp [floatLitStr, digitChar_ne_nl, nl_ne_digitChar] at h

theorem nl_not_mem_jsonEscChar (c : Char) : '\n' ∉ jsonEscChar c := by
  intro h
  unfold jsonEscChar at h
  split at h
  · simp at h
  · split at h
    · simp at h
    · split at h
      · simp at h
      · split at h
        · simp at h
        · split at h
          · simp at h
          · split at h
            · simp at h
            · split at h
              · simp at h
              · split at h
                · simp [hexChar_ne_nl] at h
                  rcases h with h | h <;> exact hexChar_ne_nl _ h.symm
                · rw [List.mem_singleton] at h
                  subst h
                  simp_all

theorem nl_not_mem_dumpsStr (s : String) : '\n' ∉ (dumpsStr s).data := by
  intro h
  have h' : '\n' ∈ ('"' :: ((s.data.map jsonEscChar).flatten ++ ['"'])) := h
  rw [List.mem_cons] at h'
  rcases h' with h' | h'
  · simp at h'
  · rw [List.mem_append] at h'
    rcases h' with h' | h'
    · rw [List.mem_flatten] at h'
      obtain ⟨l, hl, hmem⟩ := h'
      rw [List.mem_map] at hl
      obtain ⟨c, _, hc⟩ := hl
      rw [← hc] at hmem
      exact nl_not_mem_jsonEscChar c hmem
    · simp at h'

mutual
theorem nl_not_mem_dumpsJson : ∀ j : Json, '\n' ∉ (dumpsJson j).data
  | .null => by decide
  | .bool true => by decide
  | .bool false => by decide
  | .int n => nl_not_mem_intToStr n
  | .float f => nl_not_mem_floatLitStr f
  | .nan => by decide
  | .inf => by decide
  | .ninf => by decide
  | .str s => nl_not_mem_dumpsStr s
  | .arr xs => by
    intro h
    rw [show dumpsJson (.arr xs) = "[" ++ dumpsArr xs ++ "]" from rfl] at h
    rw [String.data_append, String.data_append, List.append_assoc, List.mem_append] at h
    rcases h with h | h
    · simp at h
    · rw [List.mem_append] at h
      rcases h with h | h
      · exact nl_not_mem_dumpsArr xs h
      · simp at h
  | .obj o => by
    intro h
    rw [show dumpsJson (.obj o) = "\x7b" ++ dumpsObj o ++ "\x7d" from rfl] at h
    rw [String.data_append, String.data_append, List.append_assoc, List.mem_append] at h
    rcases h with h | h
    · simp at h
    · rw [List.mem_append] at h
      rcases h with h | h
      · exact nl_not_mem_dumpsObj o h
      · simp at h
theorem nl_not_mem_dumpsArr : ∀ xs : JsonList, '\n' ∉ (dumpsArr xs).data
  | .nil => by decide
  | .cons x .nil => nl_not_mem_dumpsJson x
  | .cons x (.cons y tl) => by
    intro h
    rw [show dumpsArr (.cons x (.cons y tl)) =
      dumpsJson x ++ ", " ++ dumpsArr (.cons y tl) from rfl] at h
    rw [String.data_append, String.data_append, List.mem_append] at h
    rcases h with h | h
    · rw [List.mem_append] at h
      rcases h with h | h
      · exact nl_not_mem_dumpsJson x h
      · simp at h
    · exact nl_not_mem_dumpsArr (.cons y tl) h
theorem nl_not_mem_dumpsObj : ∀ o : JsonObj, '\n' ∉ (dumpsObj o).data
  | .nil => by decide
  | .cons k v .nil => by
    intro h
    rw [show dumpsObj (.cons k v .nil) = dumpsStr k ++ ": " ++ dumpsJson v from rfl] at h
    rw [String.data_append, String.data_append, List.mem_append] at h
    rcases h with h | h
    · rw [List.mem_append] at h
      rcases h with h | h
      · exact nl_not_mem_dumpsStr k h
      · simp at h
    · exact nl_not_mem_dumpsJson v h
  | .cons k v (.cons k2 v2 tl) => by
    intro h
    rw [show dumpsObj (.cons k v (.cons k2 v2 tl)) =
      dumpsStr k ++ ": " ++ dumpsJson v ++ ", " ++ dumpsObj (.cons k2 v2 tl) from rfl] at h
    rw [String.data_append, String.data_append, String.data_append, String.data_append,
      List.mem_append] at h
    rcases h with h | h
    · rw [List.mem_append] at h
      rcases h with h | h
      · rw [List.mem_append] at h
        rcases h with h | h
        · rw [List.mem_append] at h
          rcases h with h | h
          · exact nl_not_mem_dumpsStr k h
          · simp at h
        · exact nl_not_mem_dumpsJson v h
      · simp at h
    · exact nl_not_mem_dumpsObj (.cons k2 v2 tl) h
end

theorem nl_not_mem_strAppend {s t : String} (hs : '\n' ∉ s.data) (ht : '\n' ∉ t.data) :
    '\n' ∉ (s ++ t).data := by
  rw [String.data_append]
  intro h
  rcases List.mem_append.mp h with h | h
  · exact hs h
  · exact ht h

theorem countNL_append (s t : String) : countNL (s ++ t) = countNL s + countNL t := by
  unfold countNL
  rw [String.data_append, List.count_append]

theorem countNL_dumpsStr (s : String) : countNL (dumpsStr s) = 0 :=
  List.count_eq_zero.2 (nl_not_mem_dumpsStr s)

theorem countNL_dumpsJson (j : Json) : countNL (dumpsJson j) = 0 :=
  List.count_eq_zero.2 (nl_not_mem_dumpsJson j)

theorem countNL_natToStr (n : Nat) : countNL (natToStr n) = 0 :=
  List.count_eq_zero.2 (nl_not_mem_natToStr n)

theorem countNL_dumpsRecord (r : EvalRecord) : countNL (dumpsRecord r) = 0 := by
  rcases r with ⟨file, ok, lat, fl, sm, mt, raw, err, ts⟩
  simp only [dumpsRecord, countNL_append, countNL_dumpsStr, countNL_dumpsJson, countNL_natToStr]
  cases ok <;> rfl

theorem save_jsonl_eq : ∀ (recs : List EvalRecord) (old : String),
    save_jsonl recs old = old ++ strConcat (recs.map fun r => dumpsRecord r ++ "\n") := by
  intro recs
  induction recs with
  | nil =>
    intro old
    apply stringExt
    simp [save_jsonl, strConcat, String.data_append]
  | cons r tl ih =>
    intro old
    show save_jsonl tl (old ++ dumpsRecord r ++ "\n") = _
    rw [ih]
    apply stringExt
    simp [String.data_append, strConcat, List.append_assoc]

theorem countNL_recs : ∀ recs : List EvalRecord,
    countNL (strConcat (recs.map fun r => dumpsRecord r ++ "\n")) = recs.length := by
  intro recs
  induction recs with
  | nil => rfl
  | cons r tl ih =>
    show countNL ((dumpsRecord r ++ "\n") ++ strConcat _) = _
    rw [countNL_append, countNL_append, ih]
    have h0 : countNL (dumpsRecord r) = 0 := countNL_dumpsRecord r
    have h1 : countNL "\n" = 1 := rfl
    rw [h0, h1, List.length_cons]
    omega

/-- C7: over `K` input files, the run appends to the existing log content
exactly the `json.dumps` lines of its `K` records — one line per record
(each `dumps` output contains no newline, so the appended text has exactly
`K` newlines), every appended line the serialisation of an `EvalRecord`
built by `run_single`, and the prior file content preserved as a prefix. -/
theorem run_recorder_appends (files : List String) (retries : Nat)
    (att : String → Nat → Attempt) (ts : String → Nat) (old : String) :
    save_jsonl (mainRecords files retries att ts) old =
      old ++ strConcat ((mainRecords files retries att ts).map fun r => dumpsRecord r ++ "\n") ∧
    countNL (strConcat ((mainRecords files retries att ts).map fun r => dumpsRecord r ++ "\n")) =
      files.length ∧
    (mainRecords files retries att ts).length = files.length :=
  ⟨save_jsonl_eq _ old,
   by rw [countNL_recs]; exact List.length_map _ _,
   List.length_map _ _⟩

theorem mem_dedupStr (a : String) : ∀ l : List String, a ∈ dedupStr l ↔ a ∈ l := by
  intro l
  induction l with
  | nil => simp [dedupStr]
  | cons x tl ih =>
    simp only [dedupStr, List.mem_cons, List.mem_filter]
    constructor
    · rintro (h | ⟨h1, _⟩)
      · exact Or.inl h
      · exact Or.inr (ih.mp h1)
    · rintro (h | h)
      · exact Or.inl h
      · by_cases hxa : a = x
        · exact Or.inl hxa
        · refine Or.inr ⟨ih.mpr h, ?_⟩
          simp [hxa]

theorem dedupStr_nodup : ∀ l : List String, (dedupStr l).Nodup := by
  intro l
  induction l with
  | nil => exact List.nodup_nil
  | cons x tl ih =>
    refine List.Nodup.cons ?_ (List.Nodup.filter _ ih)
    intro hmem
    rw [List.mem_filter] at hmem
    simp at hmem

/-- C8 (spec-modelled: the Scoring Engine has no source under `src/`): the
tally counts true positives as the cardinality of the intersection of the
normalised (trimmed, lower-cased) flag sets, false positives as predicted
minus gold, false negatives as gold minus predicted; on the spec's example
`{"A","b"}` against `{"a","C"}` this gives tp = fp = fn = 1 and
precision = recall = 1/2. -/
theorem scoring_spec (pred gold : List String) :
    (scoreFlags pred gold).tp =
      ((pred.map normFlag).toFinset ∩ (gold.map normFlag).toFinset).card ∧
    (scoreFlags pred gold).fp =
      ((pred.map normFlag).toFinset \ (gold.map normFlag).toFinset).card ∧
    (scoreFlags pred gold).fn =
      ((gold.map normFlag).toFinset \ (pred.map normFlag).toFinset).card ∧
    scoreFlags ["A", "b"] ["a", "C"] = ⟨1, 1, 1⟩ ∧
    precisionOf (scoreFlags ["A", "b"] ["a", "C"]) = 1 / 2 ∧
    recallOf (scoreFlags ["A", "b"] ["a", "C"]) = 1 / 2 := by
  refine ⟨?_, ?_, ?_, by decide, ?_, ?_⟩
  · show ((dedupStr (pred.map normFlag)).filter
      (fun x => (dedupStr (gold.map normFlag)).contains x)).length = _
    rw [← List.toFinset_card_of_nodup ((dedupStr_nodup _).filter _)]
    congr 1
    ext a
    simp [List.mem_filter, mem_dedupStr, List.contains]
  · show ((dedupStr (pred.map normFlag)).filter
      (fun x => !(dedupStr (gold.map normFlag)).contains x)).length = _
    rw [← List.toFinset_card_of_nodup ((dedupStr_nodup _).filter _)]
    congr 1
    ext a
    simp [List.mem_filter, mem_dedupStr, List.contains]
  · show ((dedupStr (gold.map normFlag)).filter
      (fun x => !(dedupStr (pred.map normFlag)).contains x)).length = _
    rw [← List.toFinset_card_of_nodup ((dedupStr_nodup _).filter _)]
    congr 1
    ext a
    simp [List.mem_filter, mem_dedupStr, List.contains]
  · rw [show scoreFlags ["A", "b"] ["a", "C"] = ⟨1, 1, 1⟩ from by decide]
    norm_num [precisionOf]
  · rw [show scoreFlags ["A", "b"] ["a", "C"] = ⟨1, 1, 1⟩ from by decide]
    norm_num [recallOf]
